import Mathlib

/-!
Shallow embedding of the `dandelion` pseudo-random number generator
(`src/lib.rs`).  Machine integers are modelled as `Nat` with explicit
reductions modulo `2 ^ w`; the 128-bit generator state is a `Nat` below
`2 ^ 128`.  Every operation that advances the generator returns the produced
value together with the new state.
-/

namespace Dandelion

/-- The multiplier `M = round_nearest_odd(EULER_MASCHERONI * 2^128)` used by
the seed hash (`hash` in `src/lib.rs`). -/
def M : Nat := 0x93c467e37db0c7a4d1be3f810152cb57

/-- Reversal of the byte order of a 128-bit value (`u128::swap_bytes`):
byte `i` of the input becomes byte `15 - i` of the output. -/
def swapBytes128 (x : Nat) : Nat :=
    (x / 2 ^ 0 % 2 ^ 8) * 2 ^ 120
  + (x / 2 ^ 8 % 2 ^ 8) * 2 ^ 112
  + (x / 2 ^ 16 % 2 ^ 8) * 2 ^ 104
  + (x / 2 ^ 24 % 2 ^ 8) * 2 ^ 96
  + (x / 2 ^ 32 % 2 ^ 8) * 2 ^ 88
  + (x / 2 ^ 40 % 2 ^ 8) * 2 ^ 80
  + (x / 2 ^ 48 % 2 ^ 8) * 2 ^ 72
  + (x / 2 ^ 56 % 2 ^ 8) * 2 ^ 64
  + (x / 2 ^ 64 % 2 ^ 8) * 2 ^ 56
  + (x / 2 ^ 72 % 2 ^ 8) * 2 ^ 48
  + (x / 2 ^ 80 % 2 ^ 8) * 2 ^ 40
  + (x / 2 ^ 88 % 2 ^ 8) * 2 ^ 32
  + (x / 2 ^ 96 % 2 ^ 8) * 2 ^ 24
  + (x / 2 ^ 104 % 2 ^ 8) * 2 ^ 16
  + (x / 2 ^ 112 % 2 ^ 8) * 2 ^ 8
  + (x / 2 ^ 120 % 2 ^ 8) * 2 ^ 0

/-- The seed hash (`hash` in `src/lib.rs`): wrapping multiplication by `M`
modulo `2 ^ 128`, byte reversal, multiplication, byte reversal,
multiplication. -/
def hash (x : Nat) : Nat :=
  let a := x * M % 2 ^ 128
  let b := swapBytes128 a
  let c := b * M % 2 ^ 128
  let d := swapBytes128 c
  d * M % 2 ^ 128

/-- 64-bit rotate right (`u64::rotate_right`), for a rotation amount
`0 < n < 64`. -/
def rotr64 (y n : Nat) : Nat := (y >>> n) ||| ((y <<< (64 - n)) % 2 ^ 64)

/-- The state transition (`Rng::u64` in `src/lib.rs`): produces one 64-bit
word and the next 128-bit state. -/
def u64 (s : Nat) : Nat × Nat :=
  let x := s % 2 ^ 64
  let y := (s >>> 64) % 2 ^ 64
  let u := y ^^^ (y >>> 19)
  let v := x ^^^ rotr64 y 7
  let w := x * x % 2 ^ 128
  let z := (y + ((w % 2 ^ 64) ^^^ ((w >>> 64) % 2 ^ 64))) % 2 ^ 64
  (z, u ^^^ ((v <<< 64) % 2 ^ 128))

/-- Little-endian read of a list of bytes into a `Nat`
(`u64::from_le_bytes`); each entry is reduced modulo 256 as a `u8`. -/
def leBytesToNat (l : List Nat) : Nat :=
  l.foldr (fun b acc => b % 2 ^ 8 + 2 ^ 8 * acc) 0

/-- Construction from a 15-byte seed (`Rng::new`): two overlapping 8-byte
little-endian reads at offsets 0 and 7, the second shifted right by 8, a
marker bit at position 120, then the seed hash. -/
def new (seed : List Nat) : Nat :=
  let x := leBytesToNat (seed.take 8)
  let y := leBytesToNat ((seed.drop 7).take 8)
  let s := x ||| (((y >>> 8) <<< 64) % 2 ^ 128)
  let s := s ||| ((1 <<< 120) % 2 ^ 128)
  hash s

/-- Construction from a `u64` seed (`Rng::from_u64`): zero-extend, set a
marker bit at position 64, then hash. -/
def from_u64 (seed : Nat) : Nat :=
  hash (seed % 2 ^ 64 ||| ((1 <<< 64) % 2 ^ 128))

/-- Construction from an explicit raw state (`Rng::from_state`); the
argument is a `NonZeroU128`, so callers establish `state ≠ 0`. -/
def from_state (state : Nat) : Nat := state

/-- Construction from operating-system entropy
(`Rng::from_operating_system`); `buf` models the 16 bytes returned by
`getrandom`, read little-endian, with the low bit forced to 1. -/
def from_operating_system (buf : Nat) : Nat := buf % 2 ^ 128 ||| 1

/-- Splitting (`Rng::split`): draw two words `x`, `y`, combine them with `x`
low and `y` high, force the low bit to 1.  Returns (child state, advanced
parent state). -/
def split (s : Nat) : Nat × Nat :=
  let p := u64 s
  let q := u64 p.2
  ((p.1 ^^^ ((q.1 <<< 64) % 2 ^ 128)) ||| 1, q.2)

/-- Bounded sampling (`Rng::bounded_u64`): a sample from `0 ... n`
inclusive, via the widening multiply technique on two drawn words. -/
def bounded_u64 (s n : Nat) : Nat × Nat :=
  let p := u64 s
  let q := u64 p.2
  let x := p.1
  let y := q.1
  let m := n % 2 ^ 64
  let u := ((x * m + x) % 2 ^ 128) >>> 64
  let v := (y * m + y) % 2 ^ 128
  let z := ((u + v) % 2 ^ 128) >>> 64
  (z % 2 ^ 64, q.2)

/-- Bounded sampling (`Rng::bounded_u32`): identical arithmetic to
`bounded_u64` on two full 64-bit draws, with the bound a `u32` and the
result truncated to `u32`. -/
def bounded_u32 (s n : Nat) : Nat × Nat :=
  let p := u64 s
  let q := u64 p.2
  let x := p.1
  let y := q.1
  let m := n % 2 ^ 32
  let u := ((x * m + x) % 2 ^ 128) >>> 64
  let v := (y * m + y) % 2 ^ 128
  let z := ((u + v) % 2 ^ 128) >>> 64
  (z % 2 ^ 32, q.2)

/-- Wrapping 64-bit addition (`u64::wrapping_add`). -/
def wadd64 (a b : Nat) : Nat := (a + b) % 2 ^ 64

/-- Wrapping 64-bit subtraction (`u64::wrapping_sub`), written with natural
number operations only. -/
def wsub64 (a b : Nat) : Nat := (a + (2 ^ 64 - b % 2 ^ 64)) % 2 ^ 64

/-- Wrapping 32-bit addition (`u32::wrapping_add`). -/
def wadd32 (a b : Nat) : Nat := (a + b) % 2 ^ 32

/-- Wrapping 32-bit subtraction (`u32::wrapping_sub`). -/
def wsub32 (a b : Nat) : Nat := (a + (2 ^ 32 - b % 2 ^ 32)) % 2 ^ 32

/-- Ranged sampling (`Rng::between_u64`):
`lo.wrapping_add(bounded_u64(hi.wrapping_sub(lo)))`. -/
def between_u64 (s lo hi : Nat) : Nat × Nat :=
  let p := bounded_u64 s (wsub64 hi lo)
  (wadd64 (lo % 2 ^ 64) p.1, p.2)

/-- Ranged sampling (`Rng::between_u32`). -/
def between_u32 (s lo hi : Nat) : Nat × Nat :=
  let p := bounded_u32 s (wsub32 hi lo)
  (wadd32 (lo % 2 ^ 32) p.1, p.2)

/-- Bit pattern of an `i64` (`as u64` cast). -/
def toU64 (a : Int) : Nat := (a % (2 ^ 64 : Int)).toNat

/-- Signed reinterpretation of a 64-bit pattern (`as i64` cast). -/
def toI64 (n : Nat) : Int :=
  if n % 2 ^ 64 < 2 ^ 63 then (n % 2 ^ 64 : Int) else (n % 2 ^ 64 : Int) - 2 ^ 64

/-- Bit pattern of an `i32` (`as u32` cast). -/
def toU32 (a : Int) : Nat := (a % (2 ^ 32 : Int)).toNat

/-- Signed reinterpretation of a 32-bit pattern (`as i32` cast). -/
def toI32 (n : Nat) : Int :=
  if n % 2 ^ 32 < 2 ^ 31 then (n % 2 ^ 32 : Int) else (n % 2 ^ 32 : Int) - 2 ^ 32

/-- Ranged sampling (`Rng::between_i64`): cast both bounds to `u64`, sample
with `between_u64`, reinterpret the result as `i64`. -/
def between_i64 (s : Nat) (lo hi : Int) : Int × Nat :=
  let p := between_u64 s (toU64 lo) (toU64 hi)
  (toI64 p.1, p.2)

/-- Ranged sampling (`Rng::between_i32`). -/
def between_i32 (s : Nat) (lo hi : Int) : Int × Nat :=
  let p := between_u32 s (toU32 lo) (toU32 hi)
  (toI32 p.1, p.2)


/-! ### Basic bounds and decomposition lemmas -/

lemma draw_lt (s : Nat) : (u64 s).1 < 2 ^ 64 := by
  simp only [u64]
  exact Nat.mod_lt _ (by norm_num)

lemma y_lt (s : Nat) : (s >>> 64) % 2 ^ 64 < 2 ^ 64 := Nat.mod_lt _ (by norm_num)

lemma x_lt (s : Nat) : s % 2 ^ 64 < 2 ^ 64 := Nat.mod_lt _ (by norm_num)

lemma rotr64_lt (y : Nat) (hy : y < 2 ^ 64) : rotr64 y 7 < 2 ^ 64 := by
  apply Nat.or_lt_two_pow
  · have h : y >>> 7 ≤ y := by
      rw [Nat.shiftRight_eq_div_pow]; exact Nat.div_le_self _ _
    exact lt_of_le_of_lt h hy
  · exact Nat.mod_lt _ (by norm_num)

/-- Exclusive or of a low half with a shifted high half is plain addition. -/
lemma shiftRight_lt_of_lt {y : Nat} (hy : y < 2 ^ 64) : y >>> 19 < 2 ^ 64 := by
  calc y >>> 19 ≤ y := by
        rw [Nat.shiftRight_eq_div_pow]; exact Nat.div_le_self _ _
    _ < 2 ^ 64 := hy

lemma xor_high {u : Nat} (v : Nat) (hu : u < 2 ^ 64) :
    u ^^^ 2 ^ 64 * v = u + 2 ^ 64 * v := by
  apply Nat.eq_of_testBit_eq
  intro j
  rw [Nat.add_comm, Nat.testBit_mul_pow_two_add _ hu, Nat.testBit_xor,
    Nat.testBit_mul_pow_two]
  rcases lt_or_ge j 64 with h | h
  · simp [h, Nat.not_le.mpr h]
  · have hz : u.testBit j = false :=
      Nat.testBit_lt_two_pow
        (lt_of_lt_of_le hu (Nat.pow_le_pow_right (by norm_num) h))
    simp [h, hz, Nat.not_lt.mpr h]

lemma shiftLeft64_mod (v : Nat) (hv : v < 2 ^ 64) :
    (v <<< 64) % 2 ^ 128 = 2 ^ 64 * v := by
  rw [Nat.shiftLeft_eq, Nat.mod_eq_of_lt, Nat.mul_comm]
  calc v * 2 ^ 64 < 2 ^ 64 * 2 ^ 64 := by
        exact Nat.mul_lt_mul_of_lt_of_le hv (le_refl _) (by norm_num)
    _ = 2 ^ 128 := by norm_num

/-- The next state, written as low half plus `2 ^ 64` times the high half. -/
lemma u64_snd_add (s : Nat) :
    (u64 s).2
      = ((s >>> 64) % 2 ^ 64 ^^^ ((s >>> 64) % 2 ^ 64) >>> 19)
        + 2 ^ 64 * (s % 2 ^ 64 ^^^ rotr64 ((s >>> 64) % 2 ^ 64) 7) := by
  have hu : (s >>> 64) % 2 ^ 64 ^^^ ((s >>> 64) % 2 ^ 64) >>> 19 < 2 ^ 64 :=
    Nat.xor_lt_two_pow (y_lt s) (shiftRight_lt_of_lt (y_lt s))
  have hv : s % 2 ^ 64 ^^^ rotr64 ((s >>> 64) % 2 ^ 64) 7 < 2 ^ 64 :=
    Nat.xor_lt_two_pow (x_lt s) (rotr64_lt _ (y_lt s))
  simp only [u64]
  rw [shiftLeft64_mod _ hv, xor_high _ hu]

lemma u64_snd_lt (s : Nat) : (u64 s).2 < 2 ^ 128 := by
  rw [u64_snd_add]
  have hu : (s >>> 64) % 2 ^ 64 ^^^ ((s >>> 64) % 2 ^ 64) >>> 19 < 2 ^ 64 :=
    Nat.xor_lt_two_pow (y_lt s) (shiftRight_lt_of_lt (y_lt s))
  have hv : s % 2 ^ 64 ^^^ rotr64 ((s >>> 64) % 2 ^ 64) 7 < 2 ^ 64 :=
    Nat.xor_lt_two_pow (x_lt s) (rotr64_lt _ (y_lt s))
  have : (2 : Nat) ^ 128 = 2 ^ 64 + 2 ^ 64 * (2 ^ 64 - 1) := by norm_num
  omega

/-! ### The transition preserves nonzeroness -/

lemma u64_snd_ne_zero (s : Nat) (hs : s < 2 ^ 128) (h0 : s ≠ 0) :
    (u64 s).2 ≠ 0 := by
  rw [u64_snd_add]
  intro hcontra
  have hy64 : s >>> 64 = s / 2 ^ 64 := Nat.shiftRight_eq_div_pow s 64
  have hylt : s / 2 ^ 64 < 2 ^ 64 := by omega
  have hymod : (s >>> 64) % 2 ^ 64 = s / 2 ^ 64 := by
    rw [hy64]; exact Nat.mod_eq_of_lt hylt
  have hu0 : (s >>> 64) % 2 ^ 64 ^^^ ((s >>> 64) % 2 ^ 64) >>> 19 = 0 := by omega
  have hv0 : s % 2 ^ 64 ^^^ rotr64 ((s >>> 64) % 2 ^ 64) 7 = 0 := by omega
  have hyeq : (s >>> 64) % 2 ^ 64 = ((s >>> 64) % 2 ^ 64) >>> 19 :=
    Nat.xor_eq_zero.mp hu0
  have hy0 : s / 2 ^ 64 = 0 := by
    rw [hymod] at hyeq
    rw [Nat.shiftRight_eq_div_pow] at hyeq
    omega
  have hrot : rotr64 ((s >>> 64) % 2 ^ 64) 7 = 0 := by
    rw [hymod, hy0]
    decide
  have hx0 : s % 2 ^ 64 = 0 := by
    have := Nat.xor_eq_zero.mp hv0
    rw [hrot] at this
    exact this
  omega

/-! ### The seed hash maps nonzero inputs to nonzero outputs -/

lemma M_odd : M % 2 = 1 := by decide

lemma coprime_two_pow_M : Nat.Coprime (2 ^ 128) M := by
  apply Nat.Coprime.pow_left
  rw [Nat.coprime_two_left, Nat.odd_iff]
  exact M_odd

lemma mulM_ne_zero {x : Nat} (hx : x < 2 ^ 128) (h0 : x ≠ 0) :
    x * M % 2 ^ 128 ≠ 0 := by
  intro hcontra
  have hdvd : 2 ^ 128 ∣ x * M := Nat.dvd_of_mod_eq_zero hcontra
  have : 2 ^ 128 ∣ x := coprime_two_pow_M.dvd_of_dvd_mul_right hdvd
  exact h0 (Nat.eq_zero_of_dvd_of_lt this hx)

lemma swapBytes128_lt (x : Nat) : swapBytes128 x < 2 ^ 128 := by
  unfold swapBytes128
  omega

lemma term_zero {a m : Nat} (h : a * 2 ^ m = 0) : a = 0 := by
  rcases Nat.mul_eq_zero.mp h with h | h
  · exact h
  · exact absurd h (by positivity)

lemma eq_zero_of_mod_div {a : Nat} (h1 : a % 2 ^ 8 = 0) (h2 : a / 2 ^ 8 = 0) :
    a = 0 := by
  have := Nat.div_add_mod a (2 ^ 8)
  omega

lemma div_pow_step (x a b : Nat) (h : a + 8 = b) :
    x / 2 ^ a / 2 ^ 8 = x / 2 ^ b := by
  subst h
  rw [Nat.div_div_eq_div_mul, ← pow_add]

lemma swapBytes128_ne_zero {x : Nat} (hx : x < 2 ^ 128) (h0 : x ≠ 0) :
    swapBytes128 x ≠ 0 := by
  intro hzero
  unfold swapBytes128 at hzero
  simp only [Nat.add_eq_zero] at hzero
  obtain ⟨⟨⟨⟨⟨⟨⟨⟨⟨⟨⟨⟨⟨⟨⟨t0, t1⟩, t2⟩, t3⟩, t4⟩, t5⟩, t6⟩,
    t7⟩, t8⟩, t9⟩, t10⟩, t11⟩, t12⟩, t13⟩, t14⟩, t15⟩ := hzero
  have s15 : x / 2 ^ 120 = 0 :=
    eq_zero_of_mod_div (term_zero t15)
      ((div_pow_step x 120 128 (by norm_num)).trans (Nat.div_eq_of_lt hx))
  have s14 : x / 2 ^ 112 = 0 :=
    eq_zero_of_mod_div (term_zero t14)
      ((div_pow_step x 112 120 (by norm_num)).trans s15)
  have s13 : x / 2 ^ 104 = 0 :=
    eq_zero_of_mod_div (term_zero t13)
      ((div_pow_step x 104 112 (by norm_num)).trans s14)
  have s12 : x / 2 ^ 96 = 0 :=
    eq_zero_of_mod_div (term_zero t12)
      ((div_pow_step x 96 104 (by norm_num)).trans s13)
  have s11 : x / 2 ^ 88 = 0 :=
    eq_zero_of_mod_div (term_zero t11)
      ((div_pow_step x 88 96 (by norm_num)).trans s12)
  have s10 : x / 2 ^ 80 = 0 :=
    eq_zero_of_mod_div (term_zero t10)
      ((div_pow_step x 80 88 (by norm_num)).trans s11)
  have s9 : x / 2 ^ 72 = 0 :=
    eq_zero_of_mod_div (term_zero t9)
      ((div_pow_step x 72 80 (by norm_num)).trans s10)
  have s8 : x / 2 ^ 64 = 0 :=
    eq_zero_of_mod_div (term_zero t8)
      ((div_pow_step x 64 72 (by norm_num)).trans s9)
  have s7 : x / 2 ^ 56 = 0 :=
    eq_zero_of_mod_div (term_zero t7)
      ((div_pow_step x 56 64 (by norm_num)).trans s8)
  have s6 : x / 2 ^ 48 = 0 :=
    eq_zero_of_mod_div (term_zero t6)
      ((div_pow_step x 48 56 (by norm_num)).trans s7)
  have s5 : x / 2 ^ 40 = 0 :=
    eq_zero_of_mod_div (term_zero t5)
      ((div_pow_step x 40 48 (by norm_num)).trans s6)
  have s4 : x / 2 ^ 32 = 0 :=
    eq_zero_of_mod_div (term_zero t4)
      ((div_pow_step x 32 40 (by norm_num)).trans s5)
  have s3 : x / 2 ^ 24 = 0 :=
    eq_zero_of_mod_div (term_zero t3)
      ((div_pow_step x 24 32 (by norm_num)).trans s4)
  have s2 : x / 2 ^ 16 = 0 :=
    eq_zero_of_mod_div (term_zero t2)
      ((div_pow_step x 16 24 (by norm_num)).trans s3)
  have s1 : x / 2 ^ 8 = 0 :=
    eq_zero_of_mod_div (term_zero t1)
      ((div_pow_step x 8 16 (by norm_num)).trans s2)
  have s0 : x / 2 ^ 0 = 0 :=
    eq_zero_of_mod_div (term_zero t0)
      ((div_pow_step x 0 8 (by norm_num)).trans s1)
  exact h0 (by simpa using s0)

lemma hash_ne_zero {x : Nat} (hx : x < 2 ^ 128) (h0 : x ≠ 0) :
    hash x ≠ 0 := by
  unfold hash
  have h1 : x * M % 2 ^ 128 ≠ 0 := mulM_ne_zero hx h0
  have h1l : x * M % 2 ^ 128 < 2 ^ 128 := Nat.mod_lt _ (by norm_num)
  have h2 : swapBytes128 (x * M % 2 ^ 128) ≠ 0 := swapBytes128_ne_zero h1l h1
  have h2l : swapBytes128 (x * M % 2 ^ 128) < 2 ^ 128 := swapBytes128_lt _
  have h3 : swapBytes128 (x * M % 2 ^ 128) * M % 2 ^ 128 ≠ 0 := mulM_ne_zero h2l h2
  have h3l : swapBytes128 (x * M % 2 ^ 128) * M % 2 ^ 128 < 2 ^ 128 :=
    Nat.mod_lt _ (by norm_num)
  have h4 : swapBytes128 (swapBytes128 (x * M % 2 ^ 128) * M % 2 ^ 128) ≠ 0 :=
    swapBytes128_ne_zero h3l h3
  have h4l : swapBytes128 (swapBytes128 (x * M % 2 ^ 128) * M % 2 ^ 128) < 2 ^ 128 :=
    swapBytes128_lt _
  exact mulM_ne_zero h4l h4


/-! ### Non-zero states after construction -/

lemma or_two_pow_ne_zero (a n : Nat) : a ||| 2 ^ n ≠ 0 := by
  intro h
  have hb : (a ||| 2 ^ n).testBit n = true := by
    rw [Nat.testBit_or, Nat.testBit_two_pow_self, Bool.or_true]
  rw [h, Nat.zero_testBit] at hb
  exact Bool.false_ne_true hb

lemma or_one_ne_zero (a : Nat) : a ||| 1 ≠ 0 := by
  have h := or_two_pow_ne_zero a 0
  simpa using h

lemma leBytesToNat_lt (l : List Nat) : leBytesToNat l < 2 ^ (8 * l.length) := by
  induction l with
  | nil => simp [leBytesToNat]
  | cons b l ih =>
    have step : leBytesToNat (b :: l) = b % 2 ^ 8 + 2 ^ 8 * leBytesToNat l := rfl
    have hb : b % 2 ^ 8 < 2 ^ 8 := Nat.mod_lt _ (by norm_num)
    have hlen : 8 * (b :: l).length = 8 * l.length + 8 := by
      simp [List.length_cons]; ring
    rw [step, hlen, pow_add]
    have hpos : 0 < (2 : Nat) ^ (8 * l.length) := Nat.pos_pow_of_pos _ (by norm_num)
    nlinarith [ih]

lemma leBytesToNat_take8_lt (l : List Nat) : leBytesToNat (l.take 8) < 2 ^ 64 := by
  have h := leBytesToNat_lt (l.take 8)
  have hlen : (l.take 8).length ≤ 8 := by
    simp [List.length_take]
  calc leBytesToNat (l.take 8) < 2 ^ (8 * (l.take 8).length) := h
    _ ≤ 2 ^ 64 := Nat.pow_le_pow_right (by norm_num) (by omega)

lemma new_hash_arg_lt (seed : List Nat) :
    leBytesToNat (seed.take 8)
      ||| (((leBytesToNat ((seed.drop 7).take 8)) >>> 8 <<< 64) % 2 ^ 128)
      ||| ((1 <<< 120) % 2 ^ 128) < 2 ^ 128 := by
  apply Nat.or_lt_two_pow
  · apply Nat.or_lt_two_pow
    · exact lt_trans (leBytesToNat_take8_lt seed) (by norm_num)
    · exact Nat.mod_lt _ (by norm_num)
  · exact Nat.mod_lt _ (by norm_num)

lemma new_ne_zero (seed : List Nat) : new seed ≠ 0 := by
  unfold new
  apply hash_ne_zero (new_hash_arg_lt seed)
  have h120 : ((1 <<< 120) % 2 ^ 128 : Nat) = 2 ^ 120 := by decide
  rw [h120]
  exact or_two_pow_ne_zero _ 120

lemma from_u64_ne_zero (seed : Nat) : from_u64 seed ≠ 0 := by
  unfold from_u64
  have h64 : ((1 <<< 64) % 2 ^ 128 : Nat) = 2 ^ 64 := by decide
  apply hash_ne_zero
  · apply Nat.or_lt_two_pow
    · exact lt_trans (Nat.mod_lt _ (by norm_num)) (by norm_num)
    · exact Nat.mod_lt _ (by norm_num)
  · rw [h64]
    exact or_two_pow_ne_zero _ 64


lemma from_operating_system_ne_zero (buf : Nat) : from_operating_system buf ≠ 0 := by
  unfold from_operating_system
  exact or_one_ne_zero _

lemma or_one_eq (a : Nat) : a ||| 1 = 2 * (a / 2) + 1 := by
  apply Nat.eq_of_testBit_eq
  intro i
  cases i with
  | zero =>
    rw [Nat.testBit_zero, Nat.testBit_zero]
    have h1 : (a ||| 1) % 2 = 1 := Nat.or_mod_two_eq_one.mpr (Or.inr rfl)
    have h2 : (2 * (a / 2) + 1) % 2 = 1 := by omega
    rw [h1, h2]
  | succ j =>
    rw [Nat.testBit_add_one, Nat.testBit_add_one, Nat.or_div_two]
    have h1 : (1 : Nat) / 2 = 0 := rfl
    have h2 : (2 * (a / 2) + 1) / 2 = a / 2 := by omega
    rw [h1, h2, Nat.or_zero]

lemma or_one_add_high {x : Nat} (y : Nat) (_hx : x < 2 ^ 64) :
    (x + 2 ^ 64 * y) ||| 1 = (x ||| 1) + 2 ^ 64 * y := by
  rw [or_one_eq, or_one_eq]
  have h : (x + 2 ^ 64 * y) / 2 = x / 2 + 2 ^ 63 * y := by omega
  rw [h]
  omega

lemma or_one_lt {x : Nat} (hx : x < 2 ^ 64) : x ||| 1 < 2 ^ 64 := by
  rw [or_one_eq]
  omega

/-- The child state produced by `split`, as low half plus shifted high
half. -/
lemma split_fst_add (s : Nat) :
    (split s).1 = ((u64 s).1 ||| 1) + 2 ^ 64 * (u64 (u64 s).2).1 := by
  simp only [split]
  rw [shiftLeft64_mod _ (draw_lt _), xor_high _ (draw_lt s),
    or_one_add_high _ (draw_lt s)]

lemma split_fst_ne_zero (s : Nat) : (split s).1 ≠ 0 := by
  simp only [split]
  exact or_one_ne_zero _

lemma split_snd_eq (s : Nat) : (split s).2 = (u64 (u64 s).2).2 := rfl

/-- C1: every construction path (`new` from a 15-byte seed, `from_u64`,
`from_state`, `from_operating_system`, `split`) yields a non-zero 128-bit
state, and one `u64` transition step from any non-zero state below
`2 ^ 128` yields a non-zero state again below `2 ^ 128`, so `state ≠ 0`
holds after construction and is preserved by every sampling operation. -/
theorem C1_state_nonzero :
    (∀ seed : List Nat, new seed ≠ 0)
    ∧ (∀ seed : Nat, from_u64 seed ≠ 0)
    ∧ (∀ st : Nat, st ≠ 0 → from_state st ≠ 0)
    ∧ (∀ buf : Nat, from_operating_system buf ≠ 0)
    ∧ (∀ s : Nat, (split s).1 ≠ 0)
    ∧ (∀ s : Nat, s < 2 ^ 128 → s ≠ 0 → (split s).2 ≠ 0)
    ∧ (∀ s : Nat, s < 2 ^ 128 → s ≠ 0 → (u64 s).2 ≠ 0 ∧ (u64 s).2 < 2 ^ 128) := by
  refine ⟨new_ne_zero, from_u64_ne_zero, fun st h => h, from_operating_system_ne_zero,
    split_fst_ne_zero, ?_, ?_⟩
  · intro s hs h0
    rw [split_snd_eq]
    exact u64_snd_ne_zero _ (u64_snd_lt s) (u64_snd_ne_zero s hs h0)
  · intro s hs h0
    exact ⟨u64_snd_ne_zero s hs h0, u64_snd_lt s⟩

theorem C1_state_nonzero_witness :
    from_state 1 ≠ 0 ∧ (split 1).2 ≠ 0 ∧ (u64 1).2 ≠ 0 :=
  ⟨C1_state_nonzero.2.2.1 1 one_ne_zero,
   C1_state_nonzero.2.2.2.2.2.1 1 (by norm_num) one_ne_zero,
   (C1_state_nonzero.2.2.2.2.2.2 1 (by norm_num) one_ne_zero).1⟩

/-! ### The transition function, written in arithmetic form -/

lemma rotr64_eq_arith {y : Nat} (hy : y < 2 ^ 64) :
    rotr64 y 7 = y / 2 ^ 7 + y % 2 ^ 7 * 2 ^ 57 := by
  unfold rotr64
  have h1 : (y <<< (64 - 7)) % 2 ^ 64 = y % 2 ^ 7 * 2 ^ 57 := by
    have : (64 - 7 : Nat) = 57 := by norm_num
    rw [this, Nat.shiftLeft_eq]
    have h2 : (2 : Nat) ^ 64 = 2 ^ 7 * 2 ^ 57 := by norm_num
    rw [h2, Nat.mul_mod_mul_right]
  rw [h1, Nat.shiftRight_eq_div_pow]
  have hdiv : y / 2 ^ 7 < 2 ^ 57 := by omega
  have h3 : 2 ^ 57 * (y % 2 ^ 7) + y / 2 ^ 7
      = 2 ^ 57 * (y % 2 ^ 7) ||| y / 2 ^ 7 :=
    Nat.mul_add_lt_is_or hdiv _
  rw [Nat.mul_comm (y % 2 ^ 7) (2 ^ 57), Nat.or_comm, ← h3]
  ring

/-- C2: one transition step returns
`z = (y + ((low 64 bits of x * x) XOR (high 64 bits of x * x))) mod 2 ^ 64`
for `x` the low and `y` the high half of the state, with `x * x` the full
128-bit product, and replaces the state by new low half `y XOR (y >> 19)`
and new high half `x XOR rotate_right(y, 7)` (shifts and the rotation are
spelled out through division and remainder). -/
theorem C2_u64_transition (s : Nat) (hs : s < 2 ^ 128) :
    (u64 s).1
      = (s / 2 ^ 64 + (s % 2 ^ 64 * (s % 2 ^ 64) % 2 ^ 64
          ^^^ s % 2 ^ 64 * (s % 2 ^ 64) / 2 ^ 64)) % 2 ^ 64
    ∧ (u64 s).2 % 2 ^ 64 = s / 2 ^ 64 ^^^ s / 2 ^ 64 / 2 ^ 19
    ∧ (u64 s).2 / 2 ^ 64
      = s % 2 ^ 64 ^^^ (s / 2 ^ 64 / 2 ^ 7 + s / 2 ^ 64 % 2 ^ 7 * 2 ^ 57) := by
  have hx : s % 2 ^ 64 < 2 ^ 64 := x_lt s
  have hyv : s / 2 ^ 64 < 2 ^ 64 := by omega
  have hy : (s >>> 64) % 2 ^ 64 = s / 2 ^ 64 := by
    rw [Nat.shiftRight_eq_div_pow]
    exact Nat.mod_eq_of_lt hyv
  have hw : s % 2 ^ 64 * (s % 2 ^ 64) % 2 ^ 128 = s % 2 ^ 64 * (s % 2 ^ 64) := by
    apply Nat.mod_eq_of_lt
    calc s % 2 ^ 64 * (s % 2 ^ 64) < 2 ^ 64 * 2 ^ 64 :=
          Nat.mul_lt_mul_of_lt_of_le hx (le_of_lt hx) (by norm_num)
      _ = 2 ^ 128 := by norm_num
  have hwhi : s % 2 ^ 64 * (s % 2 ^ 64) / 2 ^ 64 < 2 ^ 64 := by
    have : s % 2 ^ 64 * (s % 2 ^ 64) < 2 ^ 128 := by
      calc s % 2 ^ 64 * (s % 2 ^ 64) < 2 ^ 64 * 2 ^ 64 :=
            Nat.mul_lt_mul_of_lt_of_le hx (le_of_lt hx) (by norm_num)
        _ = 2 ^ 128 := by norm_num
    omega
  refine ⟨?_, ?_, ?_⟩
  · simp only [u64]
    rw [hy, hw, Nat.shiftRight_eq_div_pow, Nat.mod_eq_of_lt hwhi]
  · have h := u64_snd_add s
    have hu : (s >>> 64) % 2 ^ 64 ^^^ ((s >>> 64) % 2 ^ 64) >>> 19 < 2 ^ 64 :=
      Nat.xor_lt_two_pow (y_lt s) (shiftRight_lt_of_lt (y_lt s))
    rw [h]
    have hmod : ((s >>> 64) % 2 ^ 64 ^^^ ((s >>> 64) % 2 ^ 64) >>> 19)
        + 2 ^ 64 * (s % 2 ^ 64 ^^^ rotr64 ((s >>> 64) % 2 ^ 64) 7)
        ≡ (s >>> 64) % 2 ^ 64 ^^^ ((s >>> 64) % 2 ^ 64) >>> 19 [MOD 2 ^ 64] := by
      unfold Nat.ModEq
      omega
    rw [Nat.ModEq] at hmod
    rw [hmod, Nat.mod_eq_of_lt hu, hy, Nat.shiftRight_eq_div_pow]
  · have h := u64_snd_add s
    have hu : (s >>> 64) % 2 ^ 64 ^^^ ((s >>> 64) % 2 ^ 64) >>> 19 < 2 ^ 64 :=
      Nat.xor_lt_two_pow (y_lt s) (shiftRight_lt_of_lt (y_lt s))
    rw [h]
    have hdiv : (((s >>> 64) % 2 ^ 64 ^^^ ((s >>> 64) % 2 ^ 64) >>> 19)
        + 2 ^ 64 * (s % 2 ^ 64 ^^^ rotr64 ((s >>> 64) % 2 ^ 64) 7)) / 2 ^ 64
        = s % 2 ^ 64 ^^^ rotr64 ((s >>> 64) % 2 ^ 64) 7 := by
      omega
    rw [hdiv, hy, rotr64_eq_arith hyv]

theorem C2_u64_transition_witness :
    (u64 1).1 = 1 ∧ (u64 1).2 % 2 ^ 64 = 0 ∧ (u64 1).2 / 2 ^ 64 = 1 := by
  obtain ⟨h1, h2, h3⟩ := C2_u64_transition 1 (by norm_num)
  exact ⟨h1.trans (by decide), h2.trans (by decide), h3.trans (by decide)⟩

/-- C7: `split` advances the parent exactly as two successive `u64` calls
(the parent state after the split is the two-step state), and the child
state carries the first drawn word in its low 64 bits (with the low bit
forced to 1) and the second drawn word in its high 64 bits. -/
theorem C7_split_two_draws (s : Nat) :
    (split s).2 = (u64 (u64 s).2).2
    ∧ (split s).1 % 2 ^ 64 = (u64 s).1 ||| 1
    ∧ (split s).1 / 2 ^ 64 = (u64 (u64 s).2).1
    ∧ (split s).1 % 2 = 1 := by
  have hadd := split_fst_add s
  have h1 : (u64 s).1 ||| 1 < 2 ^ 64 := or_one_lt (draw_lt s)
  have hodd : ((u64 s).1 ||| 1) % 2 = 1 := by
    rw [or_one_eq]; omega
  refine ⟨split_snd_eq s, ?_, ?_, ?_⟩ <;> rw [hadd] <;> omega

/-! ### Bounded sampling -/

lemma mul_succ_lt {x n : Nat} (hx : x < 2 ^ 64) (hn : n < 2 ^ 64) :
    x * n + x < 2 ^ 128 := by
  have h : x * n + x = x * (n + 1) := by ring
  rw [h]
  calc x * (n + 1) < 2 ^ 64 * (n + 1) :=
        Nat.mul_lt_mul_of_lt_of_le hx (le_refl _) (by omega)
    _ ≤ 2 ^ 64 * 2 ^ 64 := Nat.mul_le_mul_left _ (by omega)
    _ = 2 ^ 128 := by norm_num

lemma bounded_parts {x y n : Nat} (hx : x < 2 ^ 64) (hy : y < 2 ^ 64)
    (hn : n < 2 ^ 64) :
    x * n + x < 2 ^ 128
    ∧ y * n + y < 2 ^ 128
    ∧ (x * n + x) / 2 ^ 64 + (y * n + y) < 2 ^ 128
    ∧ ((x * n + x) / 2 ^ 64 + (y * n + y)) / 2 ^ 64 ≤ n := by
  have h1 : (x * n + x) / 2 ^ 64 * 2 ^ 64 ≤ x * n + x := Nat.div_mul_le_self _ _
  have hxy : x + 2 ^ 64 * y ≤ 2 ^ 128 - 1 := by omega
  have expand : x * n + x + (y * n + y) * 2 ^ 64 = (n + 1) * (x + 2 ^ 64 * y) := by
    ring
  have step : ((x * n + x) / 2 ^ 64 + (y * n + y)) * 2 ^ 64
      ≤ (n + 1) * (x + 2 ^ 64 * y) := by
    calc ((x * n + x) / 2 ^ 64 + (y * n + y)) * 2 ^ 64
        = (x * n + x) / 2 ^ 64 * 2 ^ 64 + (y * n + y) * 2 ^ 64 := by ring
      _ ≤ (x * n + x) + (y * n + y) * 2 ^ 64 := by omega
      _ = (n + 1) * (x + 2 ^ 64 * y) := expand
  have step2 : ((x * n + x) / 2 ^ 64 + (y * n + y)) * 2 ^ 64
      < (n + 1) * 2 ^ 64 * 2 ^ 64 := by
    have hmid : (n + 1) * (x + 2 ^ 64 * y) < (n + 1) * 2 ^ 64 * 2 ^ 64 := by
      have hle : (n + 1) * (x + 2 ^ 64 * y) ≤ (n + 1) * (2 ^ 128 - 1) :=
        Nat.mul_le_mul_left _ hxy
      have heq : (n + 1) * 2 ^ 64 * 2 ^ 64 = (n + 1) * 2 ^ 128 := by
        rw [show (2 : Nat) ^ 128 = 2 ^ 64 * 2 ^ 64 by norm_num]; ring
      rw [heq]
      have : (n + 1) * (2 ^ 128 - 1) < (n + 1) * 2 ^ 128 := by
        have hpos : 0 < n + 1 := Nat.succ_pos n
        omega
      omega
    exact lt_of_le_of_lt step hmid
  have hfin : (x * n + x) / 2 ^ 64 + (y * n + y) < (n + 1) * 2 ^ 64 :=
    Nat.lt_of_mul_lt_mul_right step2
  refine ⟨mul_succ_lt hx hn, mul_succ_lt hy hn, ?_, ?_⟩
  · calc (x * n + x) / 2 ^ 64 + (y * n + y) < (n + 1) * 2 ^ 64 := hfin
      _ ≤ 2 ^ 64 * 2 ^ 64 := Nat.mul_le_mul_right _ (by omega)
      _ = 2 ^ 128 := by norm_num
  · have := (Nat.div_lt_iff_lt_mul (show 0 < 2 ^ 64 by norm_num)).mpr hfin
    omega

lemma bounded_u64_val (s n : Nat) (hn : n < 2 ^ 64) :
    (bounded_u64 s n).1
      = (((u64 s).1 * n + (u64 s).1) / 2 ^ 64
          + ((u64 (u64 s).2).1 * n + (u64 (u64 s).2).1)) / 2 ^ 64 := by
  obtain ⟨h1, h2, h3, h4⟩ := bounded_parts (draw_lt s) (draw_lt (u64 s).2) hn
  simp only [bounded_u64, Nat.shiftRight_eq_div_pow]
  rw [Nat.mod_eq_of_lt hn, Nat.mod_eq_of_lt h1, Nat.mod_eq_of_lt h2,
    Nat.mod_eq_of_lt h3]
  exact Nat.mod_eq_of_lt (by omega)

lemma bounded_u32_val (s n : Nat) (hn : n < 2 ^ 32) :
    (bounded_u32 s n).1
      = (((u64 s).1 * n + (u64 s).1) / 2 ^ 64
          + ((u64 (u64 s).2).1 * n + (u64 (u64 s).2).1)) / 2 ^ 64 := by
  have hn64 : n < 2 ^ 64 := lt_trans hn (by norm_num)
  obtain ⟨h1, h2, h3, h4⟩ := bounded_parts (draw_lt s) (draw_lt (u64 s).2) hn64
  simp only [bounded_u32, Nat.shiftRight_eq_div_pow]
  rw [Nat.mod_eq_of_lt hn, Nat.mod_eq_of_lt h1, Nat.mod_eq_of_lt h2,
    Nat.mod_eq_of_lt h3]
  exact Nat.mod_eq_of_lt (by omega)

lemma bounded_u64_le (s n : Nat) (hn : n < 2 ^ 64) : (bounded_u64 s n).1 ≤ n := by
  rw [bounded_u64_val s n hn]
  exact (bounded_parts (draw_lt s) (draw_lt (u64 s).2) hn).2.2.2

lemma bounded_u32_le (s n : Nat) (hn : n < 2 ^ 32) : (bounded_u32 s n).1 ≤ n := by
  rw [bounded_u32_val s n hn]
  exact (bounded_parts (draw_lt s) (draw_lt (u64 s).2)
    (lt_trans hn (by norm_num))).2.2.2

/-- C3: `bounded_u64 n` and `bounded_u32 n` always return a value in the
inclusive range `0 ... n`; the wide intermediate sums `x * n + x`,
`y * n + y` and `u + v` stay below `2 ^ 128` even for the maximal bound, and
the bound `n = 0` always yields `0` at both widths. -/
theorem C3_bounded_inclusive :
    (∀ s n : Nat, n < 2 ^ 64 → (bounded_u64 s n).1 ≤ n)
    ∧ (∀ s n : Nat, n < 2 ^ 32 → (bounded_u32 s n).1 ≤ n)
    ∧ (∀ s : Nat, (bounded_u64 s 0).1 = 0)
    ∧ (∀ s : Nat, (bounded_u32 s 0).1 = 0)
    ∧ (∀ s n : Nat, n < 2 ^ 64 →
        (u64 s).1 * n + (u64 s).1 < 2 ^ 128
        ∧ (u64 (u64 s).2).1 * n + (u64 (u64 s).2).1 < 2 ^ 128
        ∧ ((u64 s).1 * n + (u64 s).1) / 2 ^ 64
            + ((u64 (u64 s).2).1 * n + (u64 (u64 s).2).1) < 2 ^ 128) := by
  refine ⟨bounded_u64_le, bounded_u32_le, ?_, ?_, ?_⟩
  · intro s
    exact Nat.le_zero.mp (bounded_u64_le s 0 (by norm_num))
  · intro s
    exact Nat.le_zero.mp (bounded_u32_le s 0 (by norm_num))
  · intro s n hn
    obtain ⟨h1, h2, h3, _⟩ := bounded_parts (draw_lt s) (draw_lt (u64 s).2) hn
    exact ⟨h1, h2, h3⟩

theorem C3_bounded_inclusive_witness :
    (bounded_u64 1 5).1 ≤ 5 ∧ (bounded_u32 1 5).1 ≤ 5
    ∧ (bounded_u64 7 0).1 = 0 ∧ (bounded_u32 7 0).1 = 0 :=
  ⟨C3_bounded_inclusive.1 1 5 (by norm_num),
   C3_bounded_inclusive.2.1 1 5 (by norm_num),
   C3_bounded_inclusive.2.2.1 7,
   C3_bounded_inclusive.2.2.2.1 7⟩

/-! ### Ranged sampling -/

lemma toU64_lt (a : Int) : toU64 a < 2 ^ 64 := by
  unfold toU64
  have h1 : a % (2 ^ 64 : Int) < 2 ^ 64 :=
    Int.emod_lt_of_pos a (by norm_num)
  have h2 : 0 ≤ a % (2 ^ 64 : Int) := Int.emod_nonneg a (by norm_num)
  omega

lemma toU32_lt (a : Int) : toU32 a < 2 ^ 32 := by
  unfold toU32
  have h1 : a % (2 ^ 32 : Int) < 2 ^ 32 :=
    Int.emod_lt_of_pos a (by norm_num)
  have h2 : 0 ≤ a % (2 ^ 32 : Int) := Int.emod_nonneg a (by norm_num)
  omega

lemma toU64_toI64 {z : Nat} (hz : z < 2 ^ 64) : toU64 (toI64 z) = z := by
  unfold toU64 toI64
  rw [Nat.mod_eq_of_lt hz]
  split <;> omega

lemma toU32_toI32 {z : Nat} (hz : z < 2 ^ 32) : toU32 (toI32 z) = z := by
  unfold toU32 toI32
  rw [Nat.mod_eq_of_lt hz]
  split <;> omega

lemma between_u64_bound (s lo hi : Nat) (_hlo : lo < 2 ^ 64) (_hhi : hi < 2 ^ 64) :
    wsub64 (between_u64 s lo hi).1 lo ≤ wsub64 hi lo := by
  have hd : wsub64 hi lo < 2 ^ 64 := Nat.mod_lt _ (by norm_num)
  have hb : (bounded_u64 s (wsub64 hi lo)).1 ≤ wsub64 hi lo :=
    bounded_u64_le s _ hd
  show wsub64 (wadd64 (lo % 2 ^ 64) (bounded_u64 s (wsub64 hi lo)).1) lo
    ≤ wsub64 hi lo
  unfold wadd64 wsub64 at *
  omega

lemma between_u32_bound (s lo hi : Nat) (_hlo : lo < 2 ^ 32) (_hhi : hi < 2 ^ 32) :
    wsub32 (between_u32 s lo hi).1 lo ≤ wsub32 hi lo := by
  have hd : wsub32 hi lo < 2 ^ 32 := Nat.mod_lt _ (by norm_num)
  have hb : (bounded_u32 s (wsub32 hi lo)).1 ≤ wsub32 hi lo :=
    bounded_u32_le s _ hd
  show wsub32 (wadd32 (lo % 2 ^ 32) (bounded_u32 s (wsub32 hi lo)).1) lo
    ≤ wsub32 hi lo
  unfold wadd32 wsub32 at *
  omega

lemma between_u64_fst_lt (s lo hi : Nat) : (between_u64 s lo hi).1 < 2 ^ 64 :=
  Nat.mod_lt _ (by norm_num)

lemma between_u32_fst_lt (s lo hi : Nat) : (between_u32 s lo hi).1 < 2 ^ 32 :=
  Nat.mod_lt _ (by norm_num)

/-- C4: each `between` sampler equals `lo` wrapping-plus
`bounded(hi wrapping-minus lo)` (so `hi < lo` describes a wraparound range
and no case panics, the functions being total), and the result `z`
satisfies `z wrapping-minus lo ≤ hi wrapping-minus lo`; for the signed
variants the same holds on the `u64`/`u32` bit patterns. -/
theorem C4_between_wrapping :
    (∀ s lo hi : Nat,
      (between_u64 s lo hi).1 = wadd64 (lo % 2 ^ 64) (bounded_u64 s (wsub64 hi lo)).1)
    ∧ (∀ s lo hi : Nat,
      (between_u32 s lo hi).1 = wadd32 (lo % 2 ^ 32) (bounded_u32 s (wsub32 hi lo)).1)
    ∧ (∀ s lo hi : Nat, lo < 2 ^ 64 → hi < 2 ^ 64 →
      wsub64 (between_u64 s lo hi).1 lo ≤ wsub64 hi lo)
    ∧ (∀ s lo hi : Nat, lo < 2 ^ 32 → hi < 2 ^ 32 →
      wsub32 (between_u32 s lo hi).1 lo ≤ wsub32 hi lo)
    ∧ (∀ (s : Nat) (lo hi : Int),
      (between_i64 s lo hi).1
        = toI64 (wadd64 (toU64 lo % 2 ^ 64) (bounded_u64 s (wsub64 (toU64 hi) (toU64 lo))).1))
    ∧ (∀ (s : Nat) (lo hi : Int),
      (between_i32 s lo hi).1
        = toI32 (wadd32 (toU32 lo % 2 ^ 32) (bounded_u32 s (wsub32 (toU32 hi) (toU32 lo))).1))
    ∧ (∀ (s : Nat) (lo hi : Int),
      wsub64 (toU64 (between_i64 s lo hi).1) (toU64 lo) ≤ wsub64 (toU64 hi) (toU64 lo))
    ∧ (∀ (s : Nat) (lo hi : Int),
      wsub32 (toU32 (between_i32 s lo hi).1) (toU32 lo) ≤ wsub32 (toU32 hi) (toU32 lo)) := by
  refine ⟨fun s lo hi => rfl, fun s lo hi => rfl, between_u64_bound,
    between_u32_bound, fun s lo hi => rfl, fun s lo hi => rfl, ?_, ?_⟩
  · intro s lo hi
    show wsub64 (toU64 (toI64 (between_u64 s (toU64 lo) (toU64 hi)).1)) (toU64 lo)
      ≤ wsub64 (toU64 hi) (toU64 lo)
    rw [toU64_toI64 (between_u64_fst_lt s (toU64 lo) (toU64 hi))]
    exact between_u64_bound s _ _ (toU64_lt lo) (toU64_lt hi)
  · intro s lo hi
    show wsub32 (toU32 (toI32 (between_u32 s (toU32 lo) (toU32 hi)).1)) (toU32 lo)
      ≤ wsub32 (toU32 hi) (toU32 lo)
    rw [toU32_toI32 (between_u32_fst_lt s (toU32 lo) (toU32 hi))]
    exact between_u32_bound s _ _ (toU32_lt lo) (toU32_lt hi)

theorem C4_between_wrapping_witness :
    wsub64 (between_u64 1 7 3).1 7 ≤ wsub64 3 7
    ∧ wsub32 (between_u32 1 9 2).1 9 ≤ wsub32 2 9 :=
  ⟨C4_between_wrapping.2.2.1 1 7 3 (by norm_num) (by norm_num),
   C4_between_wrapping.2.2.2.1 1 9 2 (by norm_num) (by norm_num)⟩

/-! ### Hash round structure -/

/-- One wrapping multiplication by the hash constant modulo `2 ^ 128`. -/
def mulM (x : Nat) : Nat := x * M % 2 ^ 128

/-- One full round in the sense of the specification: multiply by `M`, then
reverse the byte order. -/
def hashRound (x : Nat) : Nat := swapBytes128 (mulM x)

/-- C9 (counterexample): the seed hash is not three full
multiply-then-byte-reverse rounds; at input 1 the two computations
disagree, because the code omits the byte reversal after the third
multiplication. -/
theorem C9_hash_three_rounds_cex :
    hash 1 ≠ hashRound (hashRound (hashRound 1)) := by decide

/-- C9 (amended): the seed hash performs exactly three wrapping
multiplications by `M` modulo `2 ^ 128` with a byte-order reversal between
consecutive multiplications — two full multiply-then-reverse rounds
followed by a final multiplication with no trailing reversal. -/
theorem C9_hash_rounds_amended (x : Nat) :
    hash x = mulM (hashRound (hashRound x)) := rfl

/-! ### Parity of freshly constructed states -/

/-- C10 (counterexample): hashing the `u64` seed `0` yields an even state,
so states produced by seeding are not always odd in their low bit. -/
theorem C10_seeded_odd_cex : from_u64 0 % 2 = 0 := by decide

/-- C10 (amended): every generator produced by `split` has a state whose
low bit equals 1; seeded generators (`new`, `from_u64`) are guaranteed
non-zero but their low bit can be 0. -/
theorem C10_split_odd (s : Nat) : (split s).1 % 2 = 1 := by
  simp only [split]
  exact Nat.or_mod_two_eq_one.mpr (Or.inr rfl)

/-! ### Bernoulli sampling -/

/-- Fuel-based count of trailing zero bits. -/
def tzAux : Nat → Nat → Nat
  | 0, _ => 0
  | f + 1, x => if x % 2 = 1 then 0 else tzAux f (x / 2) + 1

/-- Trailing zeros of a `u64` (`u64::trailing_zeros`); returns 64 for 0. -/
def trailingZeros64 (x : Nat) : Nat := tzAux 64 x

/-- Exact rational value of the positive normal `f64` whose bit pattern is
`b` (sign bit 0, biased exponent field `b / 2 ^ 52`, mantissa field
`b % 2 ^ 52`): the value is `(2 ^ 52 + mantissa) * 2 ^ (exponent - 1075)`. -/
def f64PosNormalVal (b : Nat) : ℚ :=
  ((2 ^ 52 + b % 2 ^ 52 : Nat) : ℚ) * 2 ^ (b / 2 ^ 52 % 2 ^ 11) / 2 ^ 1075

/-- Bernoulli sampling (`Rng::bernoulli`): draw a word `x`, build a float
`t` from exponent `1022 - trailing_zeros(x)` and mantissa `x >> 12`, and
return `t < p`.  The `f64` probability argument is modelled by its exact
rational value, with `none` standing for NaN (every comparison against NaN
is false). -/
def bernoulli (s : Nat) (p : Option ℚ) : Bool × Nat :=
  let q := u64 s
  let x := q.1
  let e := 1022 - trailingZeros64 x
  let t := f64PosNormalVal ((e <<< 52) + (x >>> 12))
  (match p with
   | none => false
   | some pv => decide (t < pv), q.2)

lemma tzAux_le (f x : Nat) : tzAux f x ≤ f := by
  induction f generalizing x with
  | zero => simp [tzAux]
  | succ g ih =>
    unfold tzAux
    split
    · omega
    · have := ih (x / 2)
      omega

lemma bernoulli_t_bounds (x : Nat) (hx : x < 2 ^ 64) :
    0 < f64PosNormalVal (((1022 - trailingZeros64 x) <<< 52) + (x >>> 12))
    ∧ f64PosNormalVal (((1022 - trailingZeros64 x) <<< 52) + (x >>> 12)) < 1 := by
  have htz : trailingZeros64 x ≤ 64 := tzAux_le 64 x
  set e := 1022 - trailingZeros64 x with he
  have he1 : 958 ≤ e ∧ e ≤ 1022 := by omega
  have hm : x >>> 12 < 2 ^ 52 := by
    rw [Nat.shiftRight_eq_div_pow]
    omega
  have hb : (e <<< 52) + (x >>> 12) = e * 2 ^ 52 + x >>> 12 := by
    rw [Nat.shiftLeft_eq]
  unfold f64PosNormalVal
  rw [hb]
  have hmod : (e * 2 ^ 52 + x >>> 12) % 2 ^ 52 = x >>> 12 := by omega
  have hdiv : (e * 2 ^ 52 + x >>> 12) / 2 ^ 52 % 2 ^ 11 = e := by
    have h1 : (e * 2 ^ 52 + x >>> 12) / 2 ^ 52 = e := by omega
    rw [h1]
    omega
  rw [hmod, hdiv]
  constructor
  · apply div_pos
    · apply mul_pos
      · exact_mod_cast Nat.pos_of_ne_zero (by omega)
      · positivity
    · positivity
  · rw [div_lt_one (by positivity)]
    have hnat : (2 ^ 52 + x >>> 12) * 2 ^ e < 2 ^ 1075 := by
      calc (2 ^ 52 + x >>> 12) * 2 ^ e < 2 ^ 53 * 2 ^ e := by
            have : (2 : Nat) ^ 52 + x >>> 12 < 2 ^ 53 := by omega
            exact Nat.mul_lt_mul_of_lt_of_le this (le_refl _) (by positivity)
        _ ≤ 2 ^ 53 * 2 ^ 1022 := Nat.mul_le_mul_left _ (Nat.pow_le_pow_right (by norm_num) (by omega))
        _ = 2 ^ 1075 := by rw [← pow_add]
    calc ((2 ^ 52 + x >>> 12 : Nat) : ℚ) * 2 ^ e
        = (((2 ^ 52 + x >>> 12) * 2 ^ e : Nat) : ℚ) := by push_cast; ring
      _ < ((2 ^ 1075 : Nat) : ℚ) := by exact_mod_cast hnat
      _ = (2 : ℚ) ^ 1075 := by push_cast; ring

/-- C8: `bernoulli` returns `false` whenever the probability is NaN or at
most 0, and returns `true` whenever the probability is at least 1, for
every state; in particular `bernoulli 0` is always `false` and
`bernoulli 1` is always `true`. -/
theorem C8_bernoulli_extremes :
    (∀ s : Nat, (bernoulli s none).1 = false)
    ∧ (∀ (s : Nat) (q : ℚ), q ≤ 0 → (bernoulli s (some q)).1 = false)
    ∧ (∀ (s : Nat) (q : ℚ), 1 ≤ q → (bernoulli s (some q)).1 = true) := by
  refine ⟨fun s => rfl, ?_, ?_⟩
  · intro s q hq
    obtain ⟨hpos, _⟩ := bernoulli_t_bounds (u64 s).1 (draw_lt s)
    simp only [bernoulli]
    rw [decide_eq_false_iff_not]
    intro hlt
    exact absurd (lt_of_lt_of_le (lt_trans hpos hlt) hq) (lt_irrefl 0)
  · intro s q hq
    obtain ⟨_, hlt1⟩ := bernoulli_t_bounds (u64 s).1 (draw_lt s)
    simp only [bernoulli]
    rw [decide_eq_true_iff]
    exact lt_of_lt_of_le hlt1 hq

theorem C8_bernoulli_extremes_witness :
    (bernoulli 1 (some 0)).1 = false ∧ (bernoulli 1 (some 1)).1 = true :=
  ⟨C8_bernoulli_extremes.2.1 1 0 (le_refl 0),
   C8_bernoulli_extremes.2.2 1 1 (le_refl 1)⟩

/-! ### Float sampling, modelled by exact rational values -/

/-- Fuel-based base-2 logarithm (the index of the leading bit). -/
def log2fuel : Nat → Nat → Nat
  | 0, _ => 0
  | f + 1, n => if n < 2 then 0 else log2fuel f (n / 2) + 1

/-- Round a natural number to `p` significant bits, to nearest, ties to
even — the rounding performed by Rust integer-to-float `as` casts. -/
def rnd (p n : Nat) : Nat :=
  if n < 2 ^ p then n
  else
    let e := log2fuel 128 n
    let u := 2 ^ (e + 1 - p)
    let q := n / u
    let r := n % u
    if 2 * r < u then q * u
    else if u < 2 * r then (q + 1) * u
    else if q % 2 = 0 then q * u else (q + 1) * u

/-- Absolute value of the `i64` whose bit pattern is `z`. -/
def i64abs (z : Nat) : Nat :=
  if z % 2 ^ 64 < 2 ^ 63 then z % 2 ^ 64 else 2 ^ 64 - z % 2 ^ 64

/-- Exact rational value of `Rng::f64` at state `s`: the drawn word is
reinterpreted as an `i64` and converted to `f64` (round to 53 significant
bits, to nearest, ties to even); the multiplication by the constant
`f64::from_bits(0x3c00000000000000) = 2 ^ -63` is exact for every such
input, and clearing the sign bit of a finite float takes the absolute
value. -/
def f64_val (s : Nat) : ℚ := ((rnd 53 (i64abs (u64 s).1) : Nat) : ℚ) / 2 ^ 63

/-- Exact rational value of `Rng::f32` at state `s`
(`f32::from_bits(0x20000000) = 2 ^ -63`; the conversion rounds to 24
significant bits). -/
def f32_val (s : Nat) : ℚ := ((rnd 24 (i64abs (u64 s).1) : Nat) : ℚ) / 2 ^ 63

/-- The final masking step of `Rng::f64`
(`0x7fff_ffff_ffff_ffff & x.to_bits()`) applied to a 64-bit pattern. -/
def f64_mask_sign (b : Nat) : Nat := 0x7fffffffffffffff &&& b % 2 ^ 64

/-- The final masking step of `Rng::f32` (`0x7fff_ffff & x.to_bits()`). -/
def f32_mask_sign (b : Nat) : Nat := 0x7fffffff &&& b % 2 ^ 32

lemma log2fuel_spec :
    ∀ f n : Nat, 0 < n → n < 2 ^ f →
      2 ^ log2fuel f n ≤ n ∧ n < 2 ^ (log2fuel f n + 1) := by
  intro f
  induction f with
  | zero =>
    intro n h0 hf
    simp at hf
    omega
  | succ g ih =>
    intro n h0 hf
    unfold log2fuel
    split
    · constructor
      · simpa using h0
      · simpa using (by omega : n < 2 ^ 1)
    · have h2 : 2 ≤ n := by omega
      have hdpos : 0 < n / 2 := by omega
      have hpow : (2 : Nat) ^ (g + 1) = 2 * 2 ^ g := by
        rw [pow_succ]; ring
      have hdlt : n / 2 < 2 ^ g := by omega
      obtain ⟨hle, hlt⟩ := ih (n / 2) hdpos hdlt
      have hp1 : (2 : Nat) ^ (log2fuel g (n / 2) + 1) = 2 * 2 ^ log2fuel g (n / 2) := by
        rw [pow_succ]; ring
      have hp2 : (2 : Nat) ^ (log2fuel g (n / 2) + 1 + 1)
          = 2 * 2 ^ (log2fuel g (n / 2) + 1) := by
        rw [pow_succ]; ring
      constructor
      · rw [hp1]; omega
      · rw [hp2]; omega

lemma rnd_le {p N n : Nat} (hp : 0 < p) (hpN : p ≤ N) (hN : N < 128)
    (hn : n ≤ 2 ^ N) : rnd p n ≤ 2 ^ N := by
  unfold rnd
  split
  · exact hn
  · rename_i hge
    push_neg at hge
    dsimp only
    have hn0 : 0 < n := lt_of_lt_of_le (Nat.pos_pow_of_pos p (by norm_num)) hge
    have hnlt : n < 2 ^ 128 :=
      lt_of_le_of_lt hn (Nat.pow_lt_pow_right (by norm_num) hN)
    obtain ⟨hle, hlt⟩ := log2fuel_spec 128 n hn0 hnlt
    set e := log2fuel 128 n with he
    set u := 2 ^ (e + 1 - p) with hu
    have hupos : 0 < u := Nat.pos_pow_of_pos _ (by norm_num)
    have hpe : p ≤ e + 1 := by
      have hpow : (2 : Nat) ^ p ≤ 2 ^ (e + 1) := by omega
      exact (Nat.pow_le_pow_iff_right (by norm_num)).mp hpow
    have hsplit : u * 2 ^ p = 2 ^ (e + 1) := by
      rw [hu, ← pow_add]
      congr 1
      omega
    rcases eq_or_lt_of_le hn with heq | hlt2
    · have heN : e = N := by
        have h1 : e ≤ N := by
          apply (Nat.pow_le_pow_iff_right (show (1 : Nat) < 2 by norm_num)).mp
          omega
        have h2 : N < e + 1 := by
          apply (Nat.pow_lt_pow_iff_right (show (1 : Nat) < 2 by norm_num)).mp
          omega
        omega
      have hdvd : u ∣ n := by
        rw [heq, hu, heN]
        exact pow_dvd_pow 2 (by omega)
      have hr : n % u = 0 := by
        obtain ⟨c, hc⟩ := hdvd
        rw [hc]
        exact Nat.mul_mod_right _ _
      rw [hr]
      rw [if_pos (by omega : 2 * 0 < u)]
      rw [Nat.div_mul_cancel hdvd]
      exact hn
    · have heltN : e + 1 ≤ N := by
        have hlt3 : (2 : Nat) ^ e < 2 ^ N := lt_of_le_of_lt hle hlt2
        have : e < N := (Nat.pow_lt_pow_iff_right (show (1 : Nat) < 2 by norm_num)).mp hlt3
        omega
      have h1 : (n / u + 1) * u ≤ 2 ^ N := by
        have hq : n / u < 2 ^ p := by
          rw [Nat.div_lt_iff_lt_mul hupos]
          calc n < 2 ^ (e + 1) := hlt
            _ = u * 2 ^ p := hsplit.symm
            _ = 2 ^ p * u := by ring
        calc (n / u + 1) * u ≤ 2 ^ p * u := Nat.mul_le_mul_right _ (by omega)
          _ = u * 2 ^ p := by ring
          _ = 2 ^ (e + 1) := hsplit
          _ ≤ 2 ^ N := Nat.pow_le_pow_right (by norm_num) heltN
      have h0 : n / u * u ≤ 2 ^ N :=
        le_trans (Nat.mul_le_mul_right _ (by omega)) h1
      split
      · exact h0
      · split
        · exact h1
        · split
          · exact h0
          · exact h1

lemma i64abs_le (z : Nat) : i64abs z ≤ 2 ^ 63 := by
  unfold i64abs
  split <;> omega

lemma val_le_one (p : Nat) (hp : 0 < p) (hpN : p ≤ 63) (z : Nat) :
    ((rnd p (i64abs z) : Nat) : ℚ) / 2 ^ 63 ≤ 1 := by
  have h : rnd p (i64abs z) ≤ 2 ^ 63 :=
    rnd_le hp hpN (by norm_num) (i64abs_le z)
  rw [div_le_one (by positivity)]
  calc ((rnd p (i64abs z) : Nat) : ℚ) ≤ ((2 ^ 63 : Nat) : ℚ) := by
        exact_mod_cast h
    _ = (2 : ℚ) ^ 63 := by push_cast; ring

/-- C5 (counterexample): at the valid state `2 ^ 127` the drawn word is
`2 ^ 63`, the `i64` reinterpretation is the minimal `i64`, and both `f32`
and `f64` return exactly 1 — outside the claimed interval `[0, 1)`. -/
theorem C5_float_unit_interval_cex :
    1 ≤ f64_val (2 ^ 127) ∧ 1 ≤ f32_val (2 ^ 127) := by
  have h64 : rnd 53 (i64abs (u64 (2 ^ 127)).1) = 2 ^ 63 := by decide
  have h32 : rnd 24 (i64abs (u64 (2 ^ 127)).1) = 2 ^ 63 := by decide
  unfold f64_val f32_val
  rw [h64, h32]
  norm_num

/-- C5 (amended): `f32` and `f64` return values in the closed interval
`[0, 1]` (the right endpoint is attained, e.g. at state `2 ^ 127`), and a
zero output is always `+0`: the final mask clears the sign bit, so the
output bit pattern is always below `2 ^ 63` and in particular never the
pattern `2 ^ 63` of `-0`. -/
theorem C5_float_unit_interval_amended :
    (∀ s : Nat, 0 ≤ f64_val s ∧ f64_val s ≤ 1)
    ∧ (∀ s : Nat, 0 ≤ f32_val s ∧ f32_val s ≤ 1)
    ∧ (∀ b : Nat, f64_mask_sign b < 2 ^ 63)
    ∧ (∀ b : Nat, f32_mask_sign b < 2 ^ 31) := by
  refine ⟨?_, ?_, ?_, ?_⟩
  · intro s
    exact ⟨by unfold f64_val; positivity, val_le_one 53 (by norm_num) (by norm_num) _⟩
  · intro s
    exact ⟨by unfold f32_val; positivity, val_le_one 24 (by norm_num) (by norm_num) _⟩
  · intro b
    unfold f64_mask_sign
    rw [Nat.and_comm]
    rw [show (0x7fffffffffffffff : Nat) = 2 ^ 63 - 1 by norm_num,
      Nat.and_pow_two_sub_one_eq_mod]
    exact Nat.mod_lt _ (by norm_num)
  · intro b
    unfold f32_mask_sign
    rw [Nat.and_comm]
    rw [show (0x7fffffff : Nat) = 2 ^ 31 - 1 by norm_num,
      Nat.and_pow_two_sub_one_eq_mod]
    exact Nat.mod_lt _ (by norm_num)

/-! ### Byte filling -/

/-- Little-endian byte representation of a `u64` (`u64::to_le_bytes`). -/
def leBytes8 (w : Nat) : List Nat :=
  [w % 2 ^ 8, w / 2 ^ 8 % 2 ^ 8, w / 2 ^ 16 % 2 ^ 8, w / 2 ^ 24 % 2 ^ 8,
   w / 2 ^ 32 % 2 ^ 8, w / 2 ^ 40 % 2 ^ 8, w / 2 ^ 48 % 2 ^ 8, w / 2 ^ 56 % 2 ^ 8]

/-- The state reached after `n` transitions. -/
def stateAfter (s : Nat) : Nat → Nat
  | 0 => s
  | n + 1 => stateAfter (u64 s).2 n

/-- The concatenated little-endian bytes of `n` successively drawn words. -/
def byteStream (s : Nat) : Nat → List Nat
  | 0 => []
  | n + 1 => leBytes8 (u64 s).1 ++ byteStream (u64 s).2 n

/-- Byte filling (`Rng::bytes_inlined`, called by `Rng::bytes` and
`Rng::byte_array`): returns the bytes written into a buffer of length
`len`, with the final state.  A zero-length buffer returns immediately;
the loop writes 16-byte chunks from two drawn words while at least 17
bytes remain, then one 8-byte chunk if at least 9 remain, and finally the
leading 1–8 little-endian bytes of one more drawn word. -/
def bytes (s len : Nat) : List Nat × Nat :=
  if len = 0 then ([], s)
  else if 17 ≤ len then
    let p := u64 s
    let q := u64 p.2
    let rest := bytes q.2 (len - 16)
    (leBytes8 p.1 ++ leBytes8 q.1 ++ rest.1, rest.2)
  else if 9 ≤ len then
    let p := u64 s
    let rest := bytes p.2 (len - 8)
    (leBytes8 p.1 ++ rest.1, rest.2)
  else
    let p := u64 s
    ((leBytes8 p.1).take len, p.2)
termination_by len
decreasing_by all_goals omega

lemma leBytes8_length (w : Nat) : (leBytes8 w).length = 8 := rfl

lemma take_append8 (A B : List Nat) (n : Nat) (hA : A.length = 8)
    (hn : 8 ≤ n) : (A ++ B).take n = A ++ B.take (n - 8) := by
  rw [List.take_append_eq_append_take, hA, List.take_of_length_le (by omega)]

lemma byteStream_length (s n : Nat) : (byteStream s n).length = 8 * n := by
  induction n generalizing s with
  | zero => rfl
  | succ m ih =>
    show (leBytes8 (u64 s).1 ++ byteStream (u64 s).2 m).length = 8 * (m + 1)
    rw [List.length_append, leBytes8_length, ih]
    ring

lemma byteStream_take (s a b : Nat) (h : a ≤ b) :
    byteStream s a = (byteStream s b).take (8 * a) := by
  induction a generalizing s b with
  | zero => simp [byteStream]
  | succ c ih =>
    cases b with
    | zero => omega
    | succ d =>
      show leBytes8 (u64 s).1 ++ byteStream (u64 s).2 c
        = (leBytes8 (u64 s).1 ++ byteStream (u64 s).2 d).take (8 * (c + 1))
      rw [take_append8 _ _ _ (leBytes8_length _) (by omega)]
      have h8 : 8 * (c + 1) - 8 = 8 * c := by ring_nf; omega
      rw [h8, ← ih _ _ (by omega)]

lemma bytes_eq_stream (len : Nat) :
    ∀ s : Nat, 0 < len →
      (bytes s len).1 = (byteStream s ((len + 7) / 8)).take len
      ∧ (bytes s len).2 = stateAfter s ((len + 7) / 8) := by
  induction len using Nat.strong_induction_on with
  | _ len ih =>
    intro s hpos
    rw [bytes]
    rw [if_neg (by omega)]
    by_cases h17 : 17 ≤ len
    · rw [if_pos h17]
      dsimp only
      obtain ⟨ihl, ihs⟩ := ih (len - 16) (by omega) (u64 (u64 s).2).2 (by omega)
      have hm : (len + 7) / 8 = (len - 16 + 7) / 8 + 1 + 1 := by omega
      rw [ihl, ihs, hm]
      constructor
      · show leBytes8 (u64 s).1 ++ (leBytes8 (u64 (u64 s).2).1 ++ _)
          = (byteStream s ((len - 16 + 7) / 8 + 1 + 1)).take len
        rw [show byteStream s ((len - 16 + 7) / 8 + 1 + 1)
            = leBytes8 (u64 s).1
              ++ (leBytes8 (u64 (u64 s).2).1
                  ++ byteStream (u64 (u64 s).2).2 ((len - 16 + 7) / 8)) from rfl]
        rw [take_append8 _ _ _ (leBytes8_length _) (by omega),
          take_append8 _ _ _ (leBytes8_length _) (by omega)]
        have he : len - 8 - 8 = len - 16 := by omega
        rw [he]
      · show stateAfter (u64 (u64 s).2).2 ((len - 16 + 7) / 8)
          = stateAfter s ((len - 16 + 7) / 8 + 1 + 1)
        rfl
    · rw [if_neg h17]
      by_cases h9 : 9 ≤ len
      · rw [if_pos h9]
        dsimp only
        obtain ⟨ihl, ihs⟩ := ih (len - 8) (by omega) (u64 s).2 (by omega)
        have hm1 : (len - 8 + 7) / 8 = 1 := by omega
        have hm2 : (len + 7) / 8 = 2 := by omega
        rw [ihl, ihs, hm1, hm2]
        constructor
        · show leBytes8 (u64 s).1 ++ (byteStream (u64 s).2 1).take (len - 8)
            = (byteStream s 2).take len
          rw [show byteStream s 2
              = leBytes8 (u64 s).1 ++ byteStream (u64 s).2 1 from rfl]
          rw [take_append8 _ _ _ (leBytes8_length _) (by omega)]
        · rfl
      · rw [if_neg h9]
        dsimp only
        have hm : (len + 7) / 8 = 1 := by omega
        rw [hm]
        constructor
        · show (leBytes8 (u64 s).1).take len = (byteStream s 1).take len
          rw [show byteStream s 1 = leBytes8 (u64 s).1 ++ [] from rfl,
            List.append_nil]
        · rfl

/-- C6: `bytes` (the filling routine shared by `Rng::bytes` and
`Rng::byte_array`) is a pure function of the state and the length; a fill
of length `L1` writes exactly the first `L1` bytes of any fill of length
`L2 ≥ L1` from the same state (prefix-consistency across lengths, covering
both the `8k` leading bytes and the `r` trailing bytes of a length
`8k + r` fill); the output always has the requested length, and a
zero-length fill draws no words and leaves the state unchanged. -/
theorem C6_bytes_prefix_consistent :
    (∀ s L1 L2 : Nat, L1 ≤ L2 → (bytes s L1).1 = ((bytes s L2).1).take L1)
    ∧ (∀ s L : Nat, ((bytes s L).1).length = L)
    ∧ (∀ s : Nat, bytes s 0 = ([], s)) := by
  have hzero : ∀ s : Nat, bytes s 0 = ([], s) := by
    intro s
    rw [bytes]
    simp
  refine ⟨?_, ?_, hzero⟩
  · intro s L1 L2 h
    rcases Nat.eq_zero_or_pos L1 with h0 | hp1
    · subst h0
      rw [hzero s]
      rfl
    · have hp2 : 0 < L2 := by omega
      obtain ⟨hl1, _⟩ := bytes_eq_stream L1 s hp1
      obtain ⟨hl2, _⟩ := bytes_eq_stream L2 s hp2
      rw [hl1, hl2]
      have hmle : (L1 + 7) / 8 ≤ (L2 + 7) / 8 := by omega
      rw [byteStream_take s _ _ hmle]
      rw [List.take_take, List.take_take]
      have e1 : min L1 (8 * ((L1 + 7) / 8)) = L1 := by omega
      have e2 : min L1 L2 = L1 := by omega
      rw [e1, e2]
  · intro s L
    rcases Nat.eq_zero_or_pos L with h0 | hp
    · subst h0
      rw [hzero s]
      rfl
    · obtain ⟨hl, _⟩ := bytes_eq_stream L s hp
      rw [hl, List.length_take, byteStream_length]
      omega

theorem C6_bytes_prefix_consistent_witness :
    (bytes 1 5).1 = ((bytes 1 12).1).take 5 ∧ ((bytes 1 9).1).length = 9 :=
  ⟨C6_bytes_prefix_consistent.1 1 5 12 (by norm_num),
   C6_bytes_prefix_consistent.2.1 1 9⟩

end Dandelion
